import Mathlib

/-!
Shallow embedding of the `ai_chessboard_economy` repository: three
near-duplicate agent-based macroeconomic simulations
(`src/ai_economy.py`, `src/eco.py`, `src/python/chess.py`).

All real-valued Python arithmetic is modelled over `ℚ`; `int(x)` on the
(always clamped-nonnegative) automation quantities is `(⌊x⌋).toNat`.
Random draws (`np.random.normal`) and the shuffle of `chess.py` are
explicit inputs of the step functions.
-/

namespace AIEconomy

/-! ### Module-level constants (shared by all three scripts) -/

def ALPHA : ℚ := 5 / 100            -- ai_economy.py: fixed job automation rate
def ALPHA_MEAN : ℚ := 5 / 100       -- eco.py / chess.py: mean automation rate
def BETA : ℚ := 8 / 10              -- propensity to consume
def GAMMA : ℚ := 7 / 10             -- demand elasticity
def TAU : ℚ := 3 / 10               -- tax rate
def EPSILON : ℚ := 5 / 10           -- AI firm market dependency
def INITIAL_JOBS : ℕ := 1000        -- ai_economy.py / eco.py population size
def INITIAL_WAGE : ℚ := 100         -- ai_economy.py wage per worker
def AI_PROFIT_PER_JOB : ℚ := 50     -- profit per automated job

/-! ### Worker -/

structure Worker where
  wage : ℚ
  employed : Bool
  consumption : ℚ
deriving DecidableEq, Repr

/-- Python `Worker.__init__`: starts employed, `consumption = wage * BETA if employed else 0`. -/
def Worker.init (wage : ℚ) : Worker :=
  { wage := wage, employed := true
    consumption := if (true : Bool) then wage * BETA else 0 }

/-- Python `Worker.update`: `consumption = wage * BETA if employed else 0`. -/
def Worker.update (w : Worker) : Worker :=
  { w with consumption := if w.employed then w.wage * BETA else 0 }

/-! ### AIFirm -/

structure AIFirm where
  material_gain : ℚ
deriving DecidableEq, Repr

/-- The guarded demand-dependency ratio
`total_consumption / initial_consumption if initial_consumption > 0 else 0`
(identical in all three scripts). -/
def ratioGuarded (total_consumption initial_consumption : ℚ) : ℚ :=
  if 0 < initial_consumption then total_consumption / initial_consumption else 0

/-- Python `int(alpha * num_employed)`.  Python `int` truncates toward zero; every
call site clamps `alpha ≥ 0` first, so truncation coincides with `⌊·⌋.toNat`. -/
def jobsFromRate (alpha : ℚ) (num_employed : ℕ) : ℕ :=
  (⌊alpha * (num_employed : ℚ)⌋).toNat

/-- Method `AIFirm.update` of `ai_economy.py` (fixed rate `ALPHA`).
Returns the updated firm together with `jobs_to_automate`. -/
def AIFirm.update (f : AIFirm) (num_employed : ℕ)
    (total_consumption initial_consumption : ℚ) : AIFirm × ℕ :=
  let jobs_to_automate := jobsFromRate ALPHA num_employed
  let raw_profit := (jobs_to_automate : ℚ) * AI_PROFIT_PER_JOB
  let ratio := ratioGuarded total_consumption initial_consumption
  (⟨f.material_gain + raw_profit * max 0 (1 - EPSILON * (1 - ratio))⟩,
   jobs_to_automate)

/-- Method `AIFirm.update` of `eco.py` / `chess.py`:
`alpha = max(0, np.random.normal(ALPHA_MEAN, ALPHA_STD))`; the raw normal
draw is the explicit argument `draw`. -/
def AIFirm.updateStochastic (f : AIFirm) (draw : ℚ) (num_employed : ℕ)
    (total_consumption initial_consumption : ℚ) : AIFirm × ℕ :=
  let alpha := max 0 draw
  let jobs_to_automate := jobsFromRate alpha num_employed
  let raw_profit := (jobs_to_automate : ℚ) * AI_PROFIT_PER_JOB
  let ratio := ratioGuarded total_consumption initial_consumption
  (⟨f.material_gain + raw_profit * max 0 (1 - EPSILON * (1 - ratio))⟩,
   jobs_to_automate)

/-! ### NonAIFirm -/

structure NonAIFirm where
  revenue : ℚ
deriving DecidableEq, Repr

/-- Method `NonAIFirm.update`: `revenue = GAMMA * total_consumption`. -/
def NonAIFirm.update (_f : NonAIFirm) (total_consumption : ℚ) : NonAIFirm :=
  ⟨GAMMA * total_consumption⟩

/-! ### Government -/

structure Government where
  tax_revenue : ℚ
deriving DecidableEq, Repr

/-- Sum of wages of currently-employed workers. -/
def employedWages (workers : List Worker) : ℚ :=
  ((workers.filter (fun w => w.employed)).map Worker.wage).sum

/-- Sum of the revenues of the demand firms. -/
def firmRevenues (firms : List NonAIFirm) : ℚ :=
  (firms.map NonAIFirm.revenue).sum

/-- Method `Government.update` of `ai_economy.py`: wages are
`num_employed * INITIAL_WAGE`; returns `(government, stimulus)`. -/
def Government.updateHomogeneous (_g : Government) (num_employed : ℕ)
    (non_ai_firms : List NonAIFirm) : Government × ℚ :=
  let wages := (num_employed : ℚ) * INITIAL_WAGE
  let firm_revenue := firmRevenues non_ai_firms
  let tax := TAU * (wages + firm_revenue)
  (⟨tax⟩, (1 / 2 : ℚ) * tax)

/-- Method `Government.update` of `eco.py`: wages are summed over employed workers
(the `num_employed` argument of the Python method is unused there). -/
def Government.update (_g : Government) (_num_employed : ℕ)
    (non_ai_firms : List NonAIFirm) (workers : List Worker) : Government × ℚ :=
  let wages := employedWages workers
  let firm_revenue := firmRevenues non_ai_firms
  let tax := TAU * (wages + firm_revenue)
  (⟨tax⟩, (1 / 2 : ℚ) * tax)

/-- Method `Government.update` of `chess.py`: same wage sum, argument order `(workers, firms)`. -/
def Government.updateChess (_g : Government) (workers : List Worker)
    (firms : List NonAIFirm) : Government × ℚ :=
  let wages := employedWages workers
  let revenue := firmRevenues firms
  let tax := TAU * (wages + revenue)
  (⟨tax⟩, (1 / 2 : ℚ) * tax)

/-! ### Worker-selection primitives -/

/-- Generalised over the starting index of `enumerate`:
set `employed := False` at every listed index. -/
def fireAtF (k : ℕ) (workers : List Worker) (idxs : List ℕ) : List Worker :=
  (workers.enumFrom k).map
    (fun p => if p.1 ∈ idxs then { p.2 with employed := false } else p.2)

/-- Flip loop of `eco.py` / `chess.py`: `for idx in to_automate: workers[idx].employed = False`
(rendered functionally; each listed position is set to unemployed). -/
def fireAt (workers : List Worker) (idxs : List ℕ) : List Worker :=
  fireAtF 0 workers idxs

/-- Flip loop of `ai_economy.py`, generalised over the starting index:
`for i, worker in enumerate(workers): if i < jobs_to_automate and worker.employed:
worker.employed = False`. -/
def fireBelowF (k : ℕ) (workers : List Worker) (jobs_to_automate : ℕ) : List Worker :=
  (workers.enumFrom k).map
    (fun p => if p.1 < jobs_to_automate ∧ p.2.employed
              then { p.2 with employed := false } else p.2)

def fireBelow (workers : List Worker) (jobs_to_automate : ℕ) : List Worker :=
  fireBelowF 0 workers jobs_to_automate

/-- Generalised over the starting index of `enumerate`:
indices of the currently-employed workers, in population order. -/
def employedIndicesF (k : ℕ) (workers : List Worker) : List ℕ :=
  ((workers.enumFrom k).filter (fun p => p.2.employed)).map Prod.fst

/-- Literally `[i for i, w in enumerate(workers) if w.employed]`. -/
def employedIndices (workers : List Worker) : List ℕ :=
  employedIndicesF 0 workers

/-- Counts employed workers: `sum(1 for w in workers if w.employed)`. -/
def countEmployed (workers : List Worker) : ℕ :=
  (workers.filter (fun w => w.employed)).length

/-! ### History snapshots and engine states -/

/-- One row of the `data` dict of `ai_economy.py` / `eco.py`
(the five parallel lists appended to in lockstep). -/
structure Snapshot where
  employment : ℕ
  consumption : ℚ
  tax_revenue : ℚ
  ai_profit : ℚ
  non_ai_revenue : ℚ
deriving DecidableEq, Repr

/-- Engine state of `ai_economy.py` / `eco.py` (`Economy.__init__` fields). -/
structure Economy where
  workers : List Worker
  num_employed : ℕ
  ai_firm : AIFirm
  non_ai_firms : List NonAIFirm
  government : Government
  total_consumption : ℚ
  initial_consumption : ℚ
  data : List Snapshot
deriving DecidableEq, Repr

/-- Constructor `Economy.__init__` of `ai_economy.py`: 1000 identical workers at wage 100,
5 demand firms, the first history row recorded at construction. -/
def initHomogeneous : Economy :=
  { workers := List.replicate INITIAL_JOBS (Worker.init INITIAL_WAGE)
    num_employed := INITIAL_JOBS
    ai_firm := ⟨0⟩
    non_ai_firms := List.replicate 5 ⟨0⟩
    government := ⟨0⟩
    total_consumption := (INITIAL_JOBS : ℚ) * INITIAL_WAGE * BETA
    initial_consumption := (INITIAL_JOBS : ℚ) * INITIAL_WAGE * BETA
    data := [⟨INITIAL_JOBS, (INITIAL_JOBS : ℚ) * INITIAL_WAGE * BETA, 0, 0, 0⟩] }

/-- Method `Economy.step` of `ai_economy.py`. -/
def Economy.stepHomogeneous (e : Economy) : Economy :=
  let workers1 := e.workers.map Worker.update
  let total_consumption := (workers1.map Worker.consumption).sum
  let fu := AIFirm.update e.ai_firm e.num_employed total_consumption e.initial_consumption
  let workers2 := fireBelow workers1 fu.2
  let num_employed := countEmployed workers2
  let firms1 := e.non_ai_firms.map (fun f => f.update total_consumption)
  let gs := Government.updateHomogeneous e.government num_employed firms1
  let total2 := total_consumption + gs.2
  { workers := workers2
    num_employed := num_employed
    ai_firm := fu.1
    non_ai_firms := firms1
    government := gs.1
    total_consumption := total2
    initial_consumption := e.initial_consumption
    data := e.data ++
      [⟨num_employed, total2, (gs.1).tax_revenue, (fu.1).material_gain,
        firmRevenues firms1⟩] }

/-- Method `Economy.step` of `eco.py`; the raw normal draw for the automation rate
is the explicit argument `draw`. -/
def Economy.step (e : Economy) (draw : ℚ) : Economy :=
  let workers1 := e.workers.map Worker.update
  let total_consumption := (workers1.map Worker.consumption).sum
  let fu := AIFirm.updateStochastic e.ai_firm draw e.num_employed
              total_consumption e.initial_consumption
  let to_automate := (employedIndices workers1).take fu.2
  let workers2 := fireAt workers1 to_automate
  let num_employed := countEmployed workers2
  let firms1 := e.non_ai_firms.map (fun f => f.update total_consumption)
  let gs := Government.update e.government num_employed firms1 workers2
  let total2 := total_consumption + gs.2
  { workers := workers2
    num_employed := num_employed
    ai_firm := fu.1
    non_ai_firms := firms1
    government := gs.1
    total_consumption := total2
    initial_consumption := e.initial_consumption
    data := e.data ++
      [⟨num_employed, total2, (gs.1).tax_revenue, (fu.1).material_gain,
        firmRevenues firms1⟩] }

/-- One entry of the `history` list of `chess.py`. -/
structure ChessSnapshot where
  employment : List Bool
  wages : List ℚ
  ai_profit : ℚ
  tax_revenue : ℚ
  consumption : ℚ
deriving DecidableEq, Repr

/-- Engine state of `chess.py` (`Economy.__init__` fields; no cached
`num_employed` field, it is recounted inside `step`). -/
structure ChessEconomy where
  workers : List Worker
  ai_firm : AIFirm
  non_ai_firms : List NonAIFirm
  government : Government
  initial_consumption : ℚ
  total_consumption : ℚ
  history : List ChessSnapshot
deriving DecidableEq, Repr

/-- Method `Economy.step` of `chess.py`; the raw normal draw and the
`np.random.shuffle` permutation action are explicit inputs. -/
def ChessEconomy.step (e : ChessEconomy) (draw : ℚ)
    (shuffle : List ℕ → List ℕ) : ChessEconomy :=
  let workers1 := e.workers.map Worker.update
  let total_consumption := (workers1.map Worker.consumption).sum
  let num_employed := countEmployed workers1
  let fu := AIFirm.updateStochastic e.ai_firm draw num_employed
              total_consumption e.initial_consumption
  let workers2 := fireAt workers1 ((shuffle (employedIndices workers1)).take fu.2)
  let firms1 := e.non_ai_firms.map (fun f => f.update total_consumption)
  let gs := Government.updateChess e.government workers2 firms1
  let total2 := total_consumption + gs.2
  { workers := workers2
    ai_firm := fu.1
    non_ai_firms := firms1
    government := gs.1
    initial_consumption := e.initial_consumption
    total_consumption := total2
    history := e.history ++
      [⟨workers2.map Worker.employed,
        workers2.map (fun w => if w.employed then w.wage else 0),
        (fu.1).material_gain, (gs.1).tax_revenue, total2⟩] }

/-! ### Whole runs (the `for _ in range(NUM_STEPS): economy.step()` driver loops) -/

/-- Driver loop of `ai_economy.py`: `n` fixed-rate steps. -/
def Economy.runHomogeneous (e : Economy) (n : ℕ) : Economy :=
  Economy.stepHomogeneous^[n] e

/-- Driver loop of `eco.py`: one step per listed automation-rate draw. -/
def Economy.run (e : Economy) (draws : List ℚ) : Economy :=
  draws.foldl Economy.step e

/-- Driver loop of `chess.py`: one step per listed (draw, shuffle) pair. -/
def ChessEconomy.run (e : ChessEconomy)
    (rands : List (ℚ × (List ℕ → List ℕ))) : ChessEconomy :=
  rands.foldl (fun s r => s.step r.1 r.2) e

/-! ### Derived per-step quantities (named stages of the step functions) -/

/-- Stage 1-2 of every step function: aggregate consumption recomputed from
the updated workers, before the stimulus is added. -/
def preStimulusConsumption (e : Economy) : ℚ :=
  ((e.workers.map Worker.update).map Worker.consumption).sum

/-- The `jobs_to_automate` value `Economy.step` of `ai_economy.py` computes
from state `e` (the second component of its `AIFirm.update` call). -/
def stepJobsHomogeneous (e : Economy) : ℕ :=
  jobsFromRate ALPHA e.num_employed

/-- The `jobs_to_automate` value `Economy.step` of `eco.py` computes from
state `e` and the normal draw `draw`. -/
def stepJobs (e : Economy) (draw : ℚ) : ℕ :=
  jobsFromRate (max 0 draw) e.num_employed

/-- Employment flag stored at position `i`, `false` past the end of the list. -/
def employedAt (workers : List Worker) (i : ℕ) : Bool :=
  (workers[i]?.map Worker.employed).getD false

/-- All engine fields except the history log, as one tuple. -/
def Economy.core (e : Economy) :
    List Worker × ℕ × AIFirm × List NonAIFirm × Government × ℚ × ℚ :=
  (e.workers, e.num_employed, e.ai_firm, e.non_ai_firms, e.government,
   e.total_consumption, e.initial_consumption)

/-! ### Small concrete states used to instantiate the theorems -/

/-- A two-worker engine state used as a concrete instantiation. -/
def sampleEconomy : Economy :=
  { workers := [⟨100, true, 80⟩, ⟨60, true, 48⟩]
    num_employed := 2
    ai_firm := ⟨0⟩
    non_ai_firms := [⟨0⟩]
    government := ⟨0⟩
    total_consumption := 128
    initial_consumption := 128
    data := [⟨2, 128, 0, 0, 0⟩] }

/-- A one-worker engine state with zero demand firms configured. -/
def sampleNoFirms : Economy :=
  { workers := [⟨100, true, 80⟩]
    num_employed := 1
    ai_firm := ⟨0⟩
    non_ai_firms := []
    government := ⟨0⟩
    total_consumption := 80
    initial_consumption := 80
    data := [⟨1, 80, 0, 0, 0⟩] }

/-- A one-worker `chess.py` engine state. -/
def sampleChess : ChessEconomy :=
  { workers := [⟨100, true, 80⟩]
    ai_firm := ⟨0⟩
    non_ai_firms := [⟨0⟩]
    government := ⟨0⟩
    initial_consumption := 80
    total_consumption := 80
    history := [] }

/-- A reachable-shape state in which no worker is employed but the worker
consumption fields still hold the last pre-flip values. -/
def haltedSample : Economy :=
  { workers := [⟨100, false, 80⟩]
    num_employed := 0
    ai_firm := ⟨2500⟩
    non_ai_firms := [⟨56⟩]
    government := ⟨3⟩
    total_consumption := 120
    initial_consumption := 80
    data := [] }

/-- The fully-zeroed total-unemployment normal form of a one-worker state. -/
def zeroedSample : Economy :=
  { workers := [⟨100, false, 0⟩]
    num_employed := 0
    ai_firm := ⟨5⟩
    non_ai_firms := [⟨0⟩]
    government := ⟨0⟩
    total_consumption := 0
    initial_consumption := 80
    data := [] }

/-! ## Lemmas on the worker-selection primitives -/

theorem fireAtF_nil (k : ℕ) (idxs : List ℕ) : fireAtF k [] idxs = [] := rfl

theorem fireAtF_cons (k : ℕ) (w : Worker) (ws : List Worker) (idxs : List ℕ) :
    fireAtF k (w :: ws) idxs =
      (if k ∈ idxs then { w with employed := false } else w) ::
        fireAtF (k + 1) ws idxs := by
  simp [fireAtF, List.enumFrom_cons]

theorem fireAtF_nil_idxs (ws : List Worker) (k : ℕ) : fireAtF k ws [] = ws := by
  induction ws generalizing k with
  | nil => rfl
  | cons w ws ih => simp [fireAtF_cons, ih]

theorem fireAtF_cons_idx_lt {j k : ℕ} (ws : List Worker) (idxs : List ℕ)
    (h : j < k) : fireAtF k ws (j :: idxs) = fireAtF k ws idxs := by
  induction ws generalizing k with
  | nil => rfl
  | cons w ws ih =>
    rw [fireAtF_cons, fireAtF_cons, ih (Nat.lt_succ_of_lt h)]
    have hk : k ≠ j := ne_of_gt h
    simp [List.mem_cons, hk]

theorem fireBelowF_cons (k : ℕ) (w : Worker) (ws : List Worker) (jobs : ℕ) :
    fireBelowF k (w :: ws) jobs =
      (if k < jobs ∧ w.employed then { w with employed := false } else w) ::
        fireBelowF (k + 1) ws jobs := by
  simp [fireBelowF, List.enumFrom_cons]

theorem employedIndicesF_nil (k : ℕ) : employedIndicesF k [] = [] := rfl

theorem employedIndicesF_cons (k : ℕ) (w : Worker) (ws : List Worker) :
    employedIndicesF k (w :: ws) =
      if w.employed then k :: employedIndicesF (k + 1) ws
      else employedIndicesF (k + 1) ws := by
  cases h : w.employed <;> simp [employedIndicesF, List.enumFrom_cons, h]

theorem le_of_mem_employedIndicesF {x k : ℕ} {ws : List Worker}
    (hx : x ∈ employedIndicesF k ws) : k ≤ x := by
  induction ws generalizing k with
  | nil => simp [employedIndicesF_nil] at hx
  | cons w ws ih =>
    rw [employedIndicesF_cons] at hx
    by_cases h : w.employed
    · simp only [h, if_true, List.mem_cons] at hx
      rcases hx with rfl | hx
      · exact le_refl x
      · exact Nat.le_of_succ_le (ih hx)
    · simp only [h, if_false] at hx
      exact Nat.le_of_succ_le (ih hx)

theorem countEmployed_nil : countEmployed [] = 0 := rfl

theorem countEmployed_cons (w : Worker) (ws : List Worker) :
    countEmployed (w :: ws) =
      if w.employed then countEmployed ws + 1 else countEmployed ws := by
  cases h : w.employed <;> simp [countEmployed, List.filter_cons, h]

theorem update_employed (w : Worker) : (Worker.update w).employed = w.employed := rfl

theorem update_wage (w : Worker) : (Worker.update w).wage = w.wage := rfl

theorem countEmployed_map_update (ws : List Worker) :
    countEmployed (ws.map Worker.update) = countEmployed ws := by
  induction ws with
  | nil => rfl
  | cons w ws ih =>
    rw [List.map_cons, countEmployed_cons, countEmployed_cons, update_employed, ih]

/-- Selecting the first `jobs` employed indices (in population order) and
flipping exactly those flips exactly `min jobs (countEmployed ws)` workers. -/
theorem countEmployed_fireAtF_take (ws : List Worker) :
    ∀ k jobs : ℕ,
      countEmployed (fireAtF k ws ((employedIndicesF k ws).take jobs))
        = countEmployed ws - min jobs (countEmployed ws) := by
  induction ws with
  | nil =>
    intro k jobs
    simp [fireAtF_nil, employedIndicesF_nil, countEmployed_nil]
  | cons w ws ih =>
    intro k jobs
    by_cases hw : w.employed
    · rw [employedIndicesF_cons]
      simp only [hw, if_true]
      cases jobs with
      | zero =>
        simp only [List.take_zero, fireAtF_nil_idxs, Nat.zero_min, Nat.sub_zero]
      | succ j =>
        rw [List.take_succ_cons, fireAtF_cons,
          if_pos (List.mem_cons_self k ((employedIndicesF (k + 1) ws).take j)),
          fireAtF_cons_idx_lt _ _ (Nat.lt_succ_self k),
          countEmployed_cons]
        simp only [if_neg (by simp : ¬({ w with employed := false } : Worker).employed = true)]
        rw [ih (k + 1) j, countEmployed_cons, if_pos hw]
        omega
    · have hk : k ∉ (employedIndicesF (k + 1) ws).take jobs := by
        intro hmem
        have := le_of_mem_employedIndicesF (List.take_subset _ _ hmem)
        omega
      rw [employedIndicesF_cons, if_neg hw, fireAtF_cons, if_neg hk,
        countEmployed_cons, if_neg hw, countEmployed_cons, if_neg hw]
      exact ih (k + 1) jobs

/-- Flipping any index set never increases the employed count. -/
theorem countEmployed_fireAtF_le (ws : List Worker) :
    ∀ (k : ℕ) (idxs : List ℕ),
      countEmployed (fireAtF k ws idxs) ≤ countEmployed ws := by
  induction ws with
  | nil => intro k idxs; simp [fireAtF_nil]
  | cons w ws ih =>
    intro k idxs
    rw [fireAtF_cons]
    have h := ih (k + 1) idxs
    by_cases hk : k ∈ idxs <;> by_cases hw : w.employed = true <;>
        simp [hk, hw, countEmployed_cons] <;> omega

/-- The threshold flip of `ai_economy.py` never increases the employed count. -/
theorem countEmployed_fireBelowF_le (ws : List Worker) :
    ∀ k jobs : ℕ, countEmployed (fireBelowF k ws jobs) ≤ countEmployed ws := by
  induction ws with
  | nil => intro k jobs; simp [fireBelowF]
  | cons w ws ih =>
    intro k jobs
    rw [fireBelowF_cons]
    have h := ih (k + 1) jobs
    by_cases hj : k < jobs <;> by_cases hw : w.employed = true <;>
        simp [hj, hw, countEmployed_cons] <;> omega

/-- Pointwise description of `fireAtF`. -/
theorem fireAtF_getElem? (ws : List Worker) :
    ∀ (k : ℕ) (idxs : List ℕ) (i : ℕ),
      (fireAtF k ws idxs)[i]? =
        ws[i]?.map
          (fun w => if (k + i) ∈ idxs then { w with employed := false } else w) := by
  induction ws with
  | nil => intro k idxs i; rfl
  | cons w ws ih =>
    intro k idxs i
    cases i with
    | zero => simp [fireAtF_cons]
    | succ i =>
      rw [fireAtF_cons]
      simp only [List.getElem?_cons_succ]
      have h3 : k + 1 + i = k + (i + 1) := by omega
      rw [ih (k + 1) idxs i, h3]

/-- Pointwise description of `fireBelowF`. -/
theorem fireBelowF_getElem? (ws : List Worker) :
    ∀ k jobs i : ℕ,
      (fireBelowF k ws jobs)[i]? =
        ws[i]?.map
          (fun w => if (k + i) < jobs ∧ w.employed
                    then { w with employed := false } else w) := by
  induction ws with
  | nil => intro k jobs i; rfl
  | cons w ws ih =>
    intro k jobs i
    cases i with
    | zero => simp [fireBelowF_cons]
    | succ i =>
      rw [fireBelowF_cons]
      simp only [List.getElem?_cons_succ]
      have h3 : k + 1 + i = k + (i + 1) := by omega
      rw [ih (k + 1) jobs i, h3]

theorem employedIndicesF_length (ws : List Worker) :
    ∀ k, (employedIndicesF k ws).length = countEmployed ws := by
  induction ws with
  | nil => intro k; rfl
  | cons w ws ih =>
    intro k
    rw [employedIndicesF_cons, countEmployed_cons]
    by_cases hw : w.employed = true <;> simp [hw, ih]

theorem employedIndicesF_nodup (ws : List Worker) :
    ∀ k, (employedIndicesF k ws).Nodup := by
  induction ws with
  | nil => intro k; simp [employedIndicesF_nil]
  | cons w ws ih =>
    intro k
    rw [employedIndicesF_cons]
    by_cases hw : w.employed = true
    · rw [if_pos hw, List.nodup_cons]
      exact ⟨fun hmem => absurd (le_of_mem_employedIndicesF hmem) (by omega),
        ih (k + 1)⟩
    · rw [if_neg hw]
      exact ih (k + 1)

/-- Firing outside a position set does not change which positions are employed. -/
theorem mem_employedIndicesF_fireAtF (ws : List Worker) :
    ∀ (k : ℕ) (idxs : List ℕ) (y : ℕ), y ∉ idxs →
      (y ∈ employedIndicesF k (fireAtF k ws idxs) ↔ y ∈ employedIndicesF k ws) := by
  induction ws with
  | nil => intro k idxs y _; simp [fireAtF_nil]
  | cons w ws ih =>
    intro k idxs y hy
    rw [fireAtF_cons]
    by_cases hk : k ∈ idxs
    · have hyk : y ≠ k := fun h => hy (h ▸ hk)
      rw [if_pos hk]
      by_cases hw : w.employed = true
      · rw [employedIndicesF_cons, employedIndicesF_cons, if_pos hw]
        simp only [show ({ w with employed := false } : Worker).employed = false
          from rfl, Bool.false_eq_true, if_false]
        rw [ih (k + 1) idxs y hy]
        simp [List.mem_cons, hyk]
      · rw [employedIndicesF_cons, employedIndicesF_cons, if_neg hw]
        simp only [show ({ w with employed := false } : Worker).employed = false
          from rfl, Bool.false_eq_true, if_false]
        exact ih (k + 1) idxs y hy
    · rw [if_neg hk]
      by_cases hw : w.employed = true
      · rw [employedIndicesF_cons, employedIndicesF_cons, if_pos hw, if_pos hw]
        simp only [List.mem_cons]
        rw [ih (k + 1) idxs y hy]
      · rw [employedIndicesF_cons, employedIndicesF_cons, if_neg hw, if_neg hw]
        exact ih (k + 1) idxs y hy

/-- Firing one employed position removes exactly one employed worker. -/
theorem countEmployed_fireAtF_single (ws : List Worker) :
    ∀ k x : ℕ, x ∈ employedIndicesF k ws →
      countEmployed (fireAtF k ws [x]) = countEmployed ws - 1 := by
  induction ws with
  | nil => intro k x hx; simp [employedIndicesF_nil] at hx
  | cons w ws ih =>
    intro k x hx
    rw [employedIndicesF_cons] at hx
    rw [fireAtF_cons]
    by_cases hw : w.employed = true
    · rw [if_pos hw, List.mem_cons] at hx
      rcases hx with rfl | hx
      · rw [if_pos (List.mem_singleton.mpr rfl),
          fireAtF_cons_idx_lt ws [] (Nat.lt_succ_self x), fireAtF_nil_idxs]
        simp [countEmployed_cons, hw]
      · have hxk : k ≠ x := by
          have := le_of_mem_employedIndicesF hx; omega
        have hlen : 1 ≤ countEmployed ws := by
          have h1 := employedIndicesF_length ws (k + 1)
          have h2 := List.length_pos_of_mem hx
          omega
        rw [if_neg (by simp [List.mem_singleton]; omega)]
        rw [countEmployed_cons, countEmployed_cons, if_pos hw, if_pos hw,
          ih (k + 1) x hx]
        omega
    · rw [if_neg hw] at hx
      have hxk : k ≠ x := by
        have := le_of_mem_employedIndicesF hx; omega
      rw [if_neg (by simp [List.mem_singleton]; omega)]
      rw [countEmployed_cons, countEmployed_cons, if_neg hw, if_neg hw]
      exact ih (k + 1) x hx

/-- Firing a cons of positions is firing the head, then the tail. -/
theorem fireAtF_cons_decomp (ws : List Worker) (k x : ℕ) (idxs : List ℕ) :
    fireAtF k ws (x :: idxs) = fireAtF k (fireAtF k ws [x]) idxs := by
  apply List.ext_getElem?
  intro i
  rw [fireAtF_getElem?, fireAtF_getElem?, fireAtF_getElem?]
  cases h : ws[i]? with
  | none => rfl
  | some w =>
    simp only [Option.map_some']
    by_cases h1 : (k + i) ∈ idxs <;> by_cases h2 : (k + i) = x <;>
      simp [List.mem_cons, List.mem_singleton, h1, h2]

/-- Firing a duplicate-free set of employed positions removes exactly that
many employed workers. -/
theorem countEmployed_fireAt_nodup (idxs : List ℕ) :
    ∀ ws : List Worker, idxs.Nodup → (∀ x ∈ idxs, x ∈ employedIndices ws) →
      countEmployed (fireAt ws idxs) = countEmployed ws - idxs.length := by
  induction idxs with
  | nil => intro ws _ _; simp [fireAt, fireAtF_nil_idxs]
  | cons x idxs ih =>
    intro ws hnd hsub
    have hx : x ∈ employedIndices ws := hsub x (List.mem_cons_self _ _)
    have hxcount : 1 ≤ countEmployed ws := by
      have hx0 : x ∈ employedIndicesF 0 ws := hx
      have h1 := employedIndicesF_length ws 0
      have h2 := List.length_pos_of_mem hx0
      omega
    rw [List.nodup_cons] at hnd
    have hsub2 : ∀ y ∈ idxs, y ∈ employedIndices (fireAt ws [x]) := by
      intro y hy
      have hyx : y ∉ [x] := by
        rw [List.mem_singleton]
        intro h
        exact hnd.1 (h ▸ hy)
      exact (mem_employedIndicesF_fireAtF ws 0 [x] y hyx).mpr
        (hsub y (List.mem_cons_of_mem _ hy))
    have hrec := ih (fireAt ws [x]) hnd.2 hsub2
    have hstep : countEmployed (fireAt ws [x]) = countEmployed ws - 1 :=
      countEmployed_fireAtF_single ws 0 x hx
    rw [fireAt, fireAtF_cons_decomp]
    simp only [fireAt] at hrec hstep
    rw [hrec, hstep, List.length_cons]
    omega

/-! ## Projection lemmas: the fields each step function produces -/

theorem updateStochastic_gain (f : AIFirm) (draw : ℚ) (n : ℕ) (t i : ℚ) :
    (AIFirm.updateStochastic f draw n t i).1.material_gain =
      f.material_gain +
        (jobsFromRate (max 0 draw) n : ℚ) * AI_PROFIT_PER_JOB *
          max 0 (1 - EPSILON * (1 - ratioGuarded t i)) := rfl

theorem updateStochastic_jobs (f : AIFirm) (draw : ℚ) (n : ℕ) (t i : ℚ) :
    (AIFirm.updateStochastic f draw n t i).2 = jobsFromRate (max 0 draw) n := rfl

theorem updateFixed_gain (f : AIFirm) (n : ℕ) (t i : ℚ) :
    (AIFirm.update f n t i).1.material_gain =
      f.material_gain +
        (jobsFromRate ALPHA n : ℚ) * AI_PROFIT_PER_JOB *
          max 0 (1 - EPSILON * (1 - ratioGuarded t i)) := rfl

theorem updateFixed_jobs (f : AIFirm) (n : ℕ) (t i : ℚ) :
    (AIFirm.update f n t i).2 = jobsFromRate ALPHA n := rfl

theorem govUpdate_tax (g : Government) (n : ℕ) (firms : List NonAIFirm)
    (ws : List Worker) :
    (Government.update g n firms ws).1.tax_revenue =
      TAU * (employedWages ws + firmRevenues firms) := rfl

theorem govUpdate_stimulus (g : Government) (n : ℕ) (firms : List NonAIFirm)
    (ws : List Worker) :
    (Government.update g n firms ws).2 =
      (1 / 2 : ℚ) * (Government.update g n firms ws).1.tax_revenue := rfl

theorem step_workers (e : Economy) (draw : ℚ) :
    (e.step draw).workers =
      fireAt (e.workers.map Worker.update)
        ((employedIndices (e.workers.map Worker.update)).take (stepJobs e draw)) := rfl

theorem step_num_employed (e : Economy) (draw : ℚ) :
    (e.step draw).num_employed = countEmployed (e.step draw).workers := rfl

theorem step_ai_firm (e : Economy) (draw : ℚ) :
    (e.step draw).ai_firm =
      (AIFirm.updateStochastic e.ai_firm draw e.num_employed
        (preStimulusConsumption e) e.initial_consumption).1 := rfl

theorem step_non_ai_firms (e : Economy) (draw : ℚ) :
    (e.step draw).non_ai_firms =
      e.non_ai_firms.map (fun f => f.update (preStimulusConsumption e)) := rfl

theorem step_government (e : Economy) (draw : ℚ) :
    (e.step draw).government =
      (Government.update e.government (countEmployed (e.step draw).workers)
        (e.step draw).non_ai_firms (e.step draw).workers).1 := rfl

theorem step_total_consumption (e : Economy) (draw : ℚ) :
    (e.step draw).total_consumption =
      preStimulusConsumption e +
        (1 / 2 : ℚ) * (e.step draw).government.tax_revenue := rfl

theorem step_initial_consumption (e : Economy) (draw : ℚ) :
    (e.step draw).initial_consumption = e.initial_consumption := rfl

theorem step_data (e : Economy) (draw : ℚ) :
    (e.step draw).data = e.data ++
      [⟨(e.step draw).num_employed, (e.step draw).total_consumption,
        (e.step draw).government.tax_revenue, (e.step draw).ai_firm.material_gain,
        firmRevenues (e.step draw).non_ai_firms⟩] := rfl

theorem stepHomogeneous_workers (e : Economy) :
    (e.stepHomogeneous).workers =
      fireBelow (e.workers.map Worker.update) (stepJobsHomogeneous e) := rfl

theorem stepHomogeneous_num_employed (e : Economy) :
    (e.stepHomogeneous).num_employed = countEmployed (e.stepHomogeneous).workers := rfl

theorem stepHomogeneous_ai_firm (e : Economy) :
    (e.stepHomogeneous).ai_firm =
      (AIFirm.update e.ai_firm e.num_employed
        (preStimulusConsumption e) e.initial_consumption).1 := rfl

theorem chessStep_workers (e : ChessEconomy) (draw : ℚ)
    (shuffle : List ℕ → List ℕ) :
    (e.step draw shuffle).workers =
      fireAt (e.workers.map Worker.update)
        ((shuffle (employedIndices (e.workers.map Worker.update))).take
          (jobsFromRate (max 0 draw) (countEmployed (e.workers.map Worker.update)))) := rfl

theorem chessStep_history (e : ChessEconomy) (draw : ℚ)
    (shuffle : List ℕ → List ℕ) :
    (e.step draw shuffle).history = e.history ++
      [⟨(e.step draw shuffle).workers.map Worker.employed,
        (e.step draw shuffle).workers.map (fun w => if w.employed then w.wage else 0),
        (e.step draw shuffle).ai_firm.material_gain,
        (e.step draw shuffle).government.tax_revenue,
        (e.step draw shuffle).total_consumption⟩] := rfl

/-- Pointwise: a step of `eco.py` / `chess.py` never turns an employment
flag from false to true. -/
theorem employedAt_fireAtF_map_update_le (ws : List Worker) (idxs : List ℕ)
    (i : ℕ) :
    employedAt (fireAtF 0 (ws.map Worker.update) idxs) i ≤ employedAt ws i := by
  unfold employedAt
  rw [fireAtF_getElem?, List.getElem?_map]
  cases h : ws[i]? with
  | none => simp
  | some w =>
    simp only [Option.map_some', Option.getD_some]
    split
    · exact Bool.false_le _
    · exact le_of_eq (update_employed w)

/-- Pointwise: a step of `ai_economy.py` never turns an employment flag
from false to true. -/
theorem employedAt_fireBelowF_map_update_le (ws : List Worker) (jobs i : ℕ) :
    employedAt (fireBelowF 0 (ws.map Worker.update) jobs) i ≤ employedAt ws i := by
  unfold employedAt
  rw [fireBelowF_getElem?, List.getElem?_map]
  cases h : ws[i]? with
  | none => simp
  | some w =>
    simp only [Option.map_some', Option.getD_some]
    split
    · exact Bool.false_le _
    · exact le_of_eq (update_employed w)

theorem countEmployed_step_le (e : Economy) (draw : ℚ) :
    countEmployed (e.step draw).workers ≤ countEmployed e.workers := by
  rw [step_workers, fireAt]
  exact le_trans (countEmployed_fireAtF_le _ _ _)
    (le_of_eq (countEmployed_map_update _))

theorem countEmployed_stepHomogeneous_le (e : Economy) :
    countEmployed (e.stepHomogeneous).workers ≤ countEmployed e.workers := by
  rw [stepHomogeneous_workers, fireBelow]
  exact le_trans (countEmployed_fireBelowF_le _ _ _)
    (le_of_eq (countEmployed_map_update _))

theorem countEmployed_chessStep_le (e : ChessEconomy) (draw : ℚ)
    (shuffle : List ℕ → List ℕ) :
    countEmployed (e.step draw shuffle).workers ≤ countEmployed e.workers := by
  rw [chessStep_workers, fireAt]
  exact le_trans (countEmployed_fireAtF_le _ _ _)
    (le_of_eq (countEmployed_map_update _))

theorem countEmployed_run_le (draws : List ℚ) :
    ∀ e : Economy, countEmployed (e.run draws).workers ≤ countEmployed e.workers := by
  induction draws with
  | nil => intro e; exact le_refl _
  | cons d ds ih =>
    intro e
    have h1 : Economy.run e (d :: ds) = Economy.run (e.step d) ds := rfl
    rw [h1]
    exact le_trans (ih (e.step d)) (countEmployed_step_le e d)

/-- Exact employment count after a `chess.py` step, for every shuffle that
permutes the employed-index list. -/
theorem chess_count_exact (c : ChessEconomy) (draw : ℚ)
    (shuffle : List ℕ → List ℕ) (hperm : ∀ l, List.Perm (shuffle l) l) :
    countEmployed (c.step draw shuffle).workers =
      countEmployed c.workers -
        min (jobsFromRate (max 0 draw) (countEmployed c.workers))
          (countEmployed c.workers) := by
  rw [chessStep_workers]
  have hcnt : countEmployed (c.workers.map Worker.update) = countEmployed c.workers :=
    countEmployed_map_update _
  have hpermE := hperm (employedIndices (c.workers.map Worker.update))
  have hnodupE : (employedIndices (c.workers.map Worker.update)).Nodup :=
    employedIndicesF_nodup _ 0
  have hnodup : ((shuffle (employedIndices (c.workers.map Worker.update))).take
      (jobsFromRate (max 0 draw) (countEmployed (c.workers.map Worker.update)))).Nodup :=
    List.Nodup.sublist (List.take_sublist _ _) (hpermE.symm.nodup hnodupE)
  have hsub : ∀ x ∈ (shuffle (employedIndices (c.workers.map Worker.update))).take
      (jobsFromRate (max 0 draw) (countEmployed (c.workers.map Worker.update))),
      x ∈ employedIndices (c.workers.map Worker.update) := fun x hx =>
    (hpermE.mem_iff).mp (List.take_subset _ _ hx)
  rw [countEmployed_fireAt_nodup _ _ hnodup hsub, List.length_take,
    hpermE.length_eq, employedIndices, employedIndicesF_length, hcnt]

/-- The per-step profit increment is never negative. -/
theorem gain_increment_nonneg (jobs : ℕ) (r : ℚ) :
    0 ≤ (jobs : ℚ) * AI_PROFIT_PER_JOB * max 0 (1 - EPSILON * (1 - r)) :=
  mul_nonneg
    (mul_nonneg (Nat.cast_nonneg jobs) (by norm_num [AI_PROFIT_PER_JOB]))
    (le_max_left 0 _)

/-- C3: the cumulative profit of the automation firm never decreases,
for every `update` call (both the fixed-rate and the clamped stochastic
variant) and hence across every engine step. -/
theorem cumulative_profit_monotone (f : AIFirm) (draw : ℚ) (n : ℕ) (t i : ℚ)
    (e : Economy) :
    f.material_gain ≤ (AIFirm.update f n t i).1.material_gain
  ∧ f.material_gain ≤ (AIFirm.updateStochastic f draw n t i).1.material_gain
  ∧ e.ai_firm.material_gain ≤ (e.step draw).ai_firm.material_gain
  ∧ e.ai_firm.material_gain ≤ (e.stepHomogeneous).ai_firm.material_gain := by
  refine ⟨?_, ?_, ?_, ?_⟩
  · rw [updateFixed_gain]
    exact le_add_of_nonneg_right (gain_increment_nonneg _ _)
  · rw [updateStochastic_gain]
    exact le_add_of_nonneg_right (gain_increment_nonneg _ _)
  · rw [step_ai_firm, updateStochastic_gain]
    exact le_add_of_nonneg_right (gain_increment_nonneg _ _)
  · rw [stepHomogeneous_ai_firm, updateFixed_gain]
    exact le_add_of_nonneg_right (gain_increment_nonneg _ _)

/-- C5: with `initial_consumption = 0` the demand-dependency ratio is taken
to be `0` and both `update` variants still produce a value (using ratio `0`
in the profit adjustment); with `initial_consumption > 0` the ratio is the
quotient. -/
theorem zero_initial_consumption_ratio (f : AIFirm) (draw : ℚ) (n : ℕ)
    (t i : ℚ) :
    ratioGuarded t 0 = 0
  ∧ (AIFirm.updateStochastic f draw n t 0).1.material_gain =
      f.material_gain + (jobsFromRate (max 0 draw) n : ℚ) * AI_PROFIT_PER_JOB *
        max 0 (1 - EPSILON * (1 - 0))
  ∧ (AIFirm.update f n t 0).1.material_gain =
      f.material_gain + (jobsFromRate ALPHA n : ℚ) * AI_PROFIT_PER_JOB *
        max 0 (1 - EPSILON * (1 - 0))
  ∧ (0 < i → ratioGuarded t i = t / i) := by
  have h0 : ratioGuarded t 0 = 0 := by simp [ratioGuarded]
  refine ⟨h0, ?_, ?_, ?_⟩
  · rw [updateStochastic_gain, h0]
  · rw [updateFixed_gain, h0]
  · intro hi
    simp [ratioGuarded, hi]

theorem zero_initial_consumption_ratio_witness :
    (0 : ℚ) < 2 ∧ ratioGuarded 3 2 = 3 / 2 :=
  ⟨by norm_num, (zero_initial_consumption_ratio ⟨0⟩ 0 0 3 2).2.2.2 (by norm_num)⟩

/-- C6: after the government update of each step,
`tax_revenue = TAU * (wages of employed workers + firm revenues)`, the
stimulus added to consumption is half of it, and with zero demand firms the
tax reduces to `TAU *` the employed wages. -/
theorem government_tax_and_stimulus (e : Economy) (draw : ℚ) :
    (e.step draw).government.tax_revenue =
      TAU * (employedWages (e.step draw).workers +
             firmRevenues (e.step draw).non_ai_firms)
  ∧ (e.step draw).total_consumption =
      preStimulusConsumption e +
        (1 / 2 : ℚ) * (e.step draw).government.tax_revenue
  ∧ (e.non_ai_firms = [] →
      (e.step draw).government.tax_revenue =
        TAU * employedWages (e.step draw).workers) := by
  refine ⟨?_, step_total_consumption e draw, ?_⟩
  · rw [step_government, govUpdate_tax]
  · intro h
    rw [step_government, govUpdate_tax, step_non_ai_firms, h]
    simp [firmRevenues]

theorem government_tax_and_stimulus_witness :
    sampleNoFirms.non_ai_firms = []
  ∧ (sampleNoFirms.step 0).government.tax_revenue =
      TAU * employedWages (sampleNoFirms.step 0).workers :=
  ⟨rfl, (government_tax_and_stimulus sampleNoFirms 0).2.2 rfl⟩

/-- C7: runs are deterministic functions of the configuration together with
the random stream (the per-step draws and shuffles): two runs with equal
configurations and equal streams have equal histories, on the stochastic
and randomized-selection paths alike. -/
theorem fixed_seed_determinism (e₁ e₂ : Economy) (d₁ d₂ : List ℚ)
    (c₁ c₂ : ChessEconomy) (r₁ r₂ : List (ℚ × (List ℕ → List ℕ)))
    (he : e₁ = e₂) (hd : d₁ = d₂) (hc : c₁ = c₂) (hr : r₁ = r₂) :
    (e₁.run d₁).data = (e₂.run d₂).data
  ∧ (c₁.run r₁).history = (c₂.run r₂).history := by
  subst he hd hc hr
  exact ⟨rfl, rfl⟩

theorem fixed_seed_determinism_witness :
    (sampleEconomy.run [1 / 20]).data = (sampleEconomy.run [1 / 20]).data
  ∧ (sampleChess.run [(1 / 20, fun l => l.reverse)]).history =
      (sampleChess.run [(1 / 20, fun l => l.reverse)]).history :=
  fixed_seed_determinism sampleEconomy sampleEconomy [1 / 20] [1 / 20]
    sampleChess sampleChess [(1 / 20, fun l => l.reverse)]
    [(1 / 20, fun l => l.reverse)] rfl rfl rfl rfl

/-- C9: demand-firm revenues are computed from the pre-stimulus aggregate
consumption; the stimulus addition only changes the aggregate
`total_consumption` (the worker list is fully determined before the
government stage, and no wage is ever modified). -/
theorem stimulus_frame_effect (e : Economy) (draw : ℚ) (i : ℕ) :
    (e.step draw).non_ai_firms =
      e.non_ai_firms.map (fun f => f.update (preStimulusConsumption e))
  ∧ (e.step draw).workers =
      fireAt (e.workers.map Worker.update)
        ((employedIndices (e.workers.map Worker.update)).take (stepJobs e draw))
  ∧ (e.step draw).total_consumption =
      preStimulusConsumption e +
        (1 / 2 : ℚ) * (e.step draw).government.tax_revenue
  ∧ ((e.step draw).workers[i]?).map Worker.wage =
      (e.workers[i]?).map Worker.wage := by
  refine ⟨step_non_ai_firms e draw, step_workers e draw,
    step_total_consumption e draw, ?_⟩
  rw [step_workers, fireAt, fireAtF_getElem?, List.getElem?_map]
  cases h : e.workers[i]? with
  | none => rfl
  | some w =>
    simp only [Option.map_some']
    congr 1
    split <;> rfl

/-! ## Evaluation of the homogeneous engine on its initial state -/

theorem fireBelowF_append (xs ys : List Worker) (k jobs : ℕ) :
    fireBelowF k (xs ++ ys) jobs =
      fireBelowF k xs jobs ++ fireBelowF (k + xs.length) ys jobs := by
  simp [fireBelowF, List.enumFrom_append]

theorem fireBelowF_replicate_employed (n : ℕ) :
    ∀ k jobs : ℕ, ∀ w : Worker, w.employed = true → k + n ≤ jobs →
      fireBelowF k (List.replicate n w) jobs =
        List.replicate n { w with employed := false } := by
  induction n with
  | zero => intro k jobs w _ _; rfl
  | succ n ih =>
    intro k jobs w hw hk
    rw [List.replicate_succ, List.replicate_succ, fireBelowF_cons,
      if_pos ⟨by omega, hw⟩, ih (k + 1) jobs w hw (by omega)]

theorem fireBelowF_of_le (ws : List Worker) :
    ∀ k jobs : ℕ, jobs ≤ k → fireBelowF k ws jobs = ws := by
  induction ws with
  | nil => intro k jobs _; rfl
  | cons w ws ih =>
    intro k jobs h
    rw [fireBelowF_cons, if_neg (fun hc => absurd hc.1 (by omega)),
      ih (k + 1) jobs (by omega)]

theorem fireBelowF_unemployed (ws : List Worker) :
    ∀ k jobs : ℕ, (∀ w ∈ ws, w.employed = false) → fireBelowF k ws jobs = ws := by
  induction ws with
  | nil => intro k jobs _; rfl
  | cons w ws ih =>
    intro k jobs h
    have hw : w.employed = false := h w (List.mem_cons_self _ _)
    rw [fireBelowF_cons, if_neg (fun hc => by rw [hw] at hc; exact absurd hc.2 (by simp)),
      ih (k + 1) jobs (fun u hu => h u (List.mem_cons_of_mem _ hu))]

theorem countEmployed_append (xs ys : List Worker) :
    countEmployed (xs ++ ys) = countEmployed xs + countEmployed ys := by
  simp [countEmployed, List.filter_append]

theorem countEmployed_replicate (n : ℕ) (w : Worker) :
    countEmployed (List.replicate n w) = if w.employed then n else 0 := by
  cases h : w.employed <;> simp [countEmployed, List.filter_replicate, h]

theorem worker_init_eval : Worker.init INITIAL_WAGE = ⟨100, true, 80⟩ := by
  simp only [Worker.init, INITIAL_WAGE, BETA, if_true]
  norm_num

theorem update_employed_eval :
    Worker.update ⟨100, true, 80⟩ = ⟨100, true, 80⟩ := by
  simp only [Worker.update, BETA]
  norm_num

theorem update_fired_eval :
    Worker.update ⟨100, false, 80⟩ = ⟨100, false, 0⟩ := by
  simp [Worker.update]

theorem init_workers_eval :
    initHomogeneous.workers = List.replicate 1000 (⟨100, true, 80⟩ : Worker) := by
  show List.replicate INITIAL_JOBS (Worker.init INITIAL_WAGE) = _
  rw [worker_init_eval]
  rfl

theorem init_workers_updated :
    initHomogeneous.workers.map Worker.update =
      List.replicate 1000 (⟨100, true, 80⟩ : Worker) := by
  rw [init_workers_eval, List.map_replicate, update_employed_eval]

theorem preStim_init : preStimulusConsumption initHomogeneous = 80000 := by
  rw [preStimulusConsumption, init_workers_updated, List.map_replicate,
    List.sum_replicate]
  show (1000 : ℕ) • (80 : ℚ) = 80000
  rw [nsmul_eq_mul]
  norm_num

theorem init_initial_consumption :
    initHomogeneous.initial_consumption = 80000 := by
  show (INITIAL_JOBS : ℕ) * INITIAL_WAGE * BETA = 80000
  norm_num [INITIAL_JOBS, INITIAL_WAGE, BETA]

theorem jobsFromRate_1000 : jobsFromRate ALPHA 1000 = 50 := by
  rw [jobsFromRate, ALPHA]
  norm_num
  rfl

theorem jobsFromRate_950 : jobsFromRate ALPHA 950 = 47 := by
  rw [jobsFromRate, ALPHA]
  norm_num
  rfl

theorem stepJobsHom_init : stepJobsHomogeneous initHomogeneous = 50 := by
  rw [stepJobsHomogeneous]
  show jobsFromRate ALPHA 1000 = 50
  exact jobsFromRate_1000

theorem first_step_workers :
    (initHomogeneous.stepHomogeneous).workers =
      List.replicate 50 (⟨100, false, 80⟩ : Worker) ++
        List.replicate 950 (⟨100, true, 80⟩ : Worker) := by
  rw [stepHomogeneous_workers, stepJobsHom_init, init_workers_updated, fireBelow]
  rw [show (1000 : ℕ) = 50 + 950 from rfl, List.replicate_add, fireBelowF_append,
    List.length_replicate]
  rw [fireBelowF_replicate_employed 50 0 50 _ rfl (by omega)]
  rw [fireBelowF_of_le _ 50 50 (by omega)]

theorem first_step_count :
    countEmployed (initHomogeneous.stepHomogeneous).workers = 950 := by
  rw [first_step_workers, countEmployed_append, countEmployed_replicate,
    countEmployed_replicate]
  simp

theorem first_step_num_employed :
    (initHomogeneous.stepHomogeneous).num_employed = 950 := by
  rw [stepHomogeneous_num_employed]
  exact first_step_count

theorem ratio_init :
    ratioGuarded (preStimulusConsumption initHomogeneous)
      initHomogeneous.initial_consumption = 1 := by
  rw [preStim_init, init_initial_consumption, ratioGuarded]
  norm_num

theorem first_step_gain :
    (initHomogeneous.stepHomogeneous).ai_firm.material_gain =
      initHomogeneous.ai_firm.material_gain + 2500 := by
  rw [stepHomogeneous_ai_firm, updateFixed_gain]
  have h1 : initHomogeneous.num_employed = 1000 := rfl
  rw [h1, jobsFromRate_1000, ratio_init]
  norm_num [AI_PROFIT_PER_JOB, EPSILON]

theorem stepJobsHom_first_step :
    stepJobsHomogeneous (initHomogeneous.stepHomogeneous) = 47 := by
  rw [stepJobsHomogeneous, first_step_num_employed]
  exact jobsFromRate_950

theorem second_step_workers :
    (initHomogeneous.stepHomogeneous.stepHomogeneous).workers =
      List.replicate 50 (⟨100, false, 0⟩ : Worker) ++
        List.replicate 950 (⟨100, true, 80⟩ : Worker) := by
  rw [stepHomogeneous_workers, stepJobsHom_first_step, first_step_workers,
    List.map_append, List.map_replicate, List.map_replicate,
    update_fired_eval, update_employed_eval, fireBelow, fireBelowF_append,
    List.length_replicate]
  rw [fireBelowF_unemployed _ 0 47 (fun u hu => by
    rw [List.eq_of_mem_replicate hu])]
  rw [fireBelowF_of_le _ 50 47 (by omega)]

theorem second_step_count :
    countEmployed (initHomogeneous.stepHomogeneous.stepHomogeneous).workers = 950 := by
  rw [second_step_workers, countEmployed_append, countEmployed_replicate,
    countEmployed_replicate]
  simp

/-- C4: from the initial 1000-worker wage-100 state of `ai_economy.py`
(automation rate fixed at 0.05), one step computes
`jobs_to_automate = 50`, leaves 950 employed, has raw profit
`50 * 50 = 2500`, demand ratio exactly 1, and adds exactly 2500 to the
cumulative profit. -/
theorem initial_step_scenario :
    stepJobsHomogeneous initHomogeneous = 50
  ∧ initHomogeneous.stepHomogeneous.num_employed = 950
  ∧ (stepJobsHomogeneous initHomogeneous : ℚ) * AI_PROFIT_PER_JOB = 2500
  ∧ ratioGuarded (preStimulusConsumption initHomogeneous)
      initHomogeneous.initial_consumption = 1
  ∧ initHomogeneous.stepHomogeneous.ai_firm.material_gain =
      initHomogeneous.ai_firm.material_gain + 2500 := by
  refine ⟨stepJobsHom_init, first_step_num_employed, ?_, ratio_init,
    first_step_gain⟩
  rw [stepJobsHom_init]
  norm_num [AI_PROFIT_PER_JOB]

/-- C1: at the second step of `ai_economy.py` from its initial state the
firm returns `jobs_to_automate = 47` with 950 workers employed, yet the
selection loop (`if i < jobs_to_automate and worker.employed`) flips no
worker at all — not the `min 47 950 = 47` the specification demands —
because the 50 already-unemployed workers occupy all indices below 47. -/
theorem second_step_automates_nobody :
    stepJobsHomogeneous (initHomogeneous.stepHomogeneous) = 47
  ∧ countEmployed (initHomogeneous.stepHomogeneous).workers = 950
  ∧ (initHomogeneous.stepHomogeneous.stepHomogeneous).workers.map Worker.employed
      = (initHomogeneous.stepHomogeneous).workers.map Worker.employed
  ∧ (initHomogeneous.stepHomogeneous.stepHomogeneous).num_employed = 950 := by
  refine ⟨stepJobsHom_first_step, first_step_count, ?_, ?_⟩
  · rw [second_step_workers, first_step_workers, List.map_append,
      List.map_append]
    rfl
  · rw [stepHomogeneous_num_employed]
    exact second_step_count

/-- C2: the employed-worker count is monotonically non-increasing, per step
and across whole runs, and no employment flag ever flips from false to true,
in all three engine variants. -/
theorem employment_monotone_non_increasing (e : Economy) (draw : ℚ) (i : ℕ)
    (c : ChessEconomy) (shuffle : List ℕ → List ℕ) (draws : List ℚ) :
    employedAt (e.step draw).workers i ≤ employedAt e.workers i
  ∧ countEmployed (e.step draw).workers ≤ countEmployed e.workers
  ∧ employedAt (e.stepHomogeneous).workers i ≤ employedAt e.workers i
  ∧ countEmployed (e.stepHomogeneous).workers ≤ countEmployed e.workers
  ∧ employedAt (c.step draw shuffle).workers i ≤ employedAt c.workers i
  ∧ countEmployed (c.step draw shuffle).workers ≤ countEmployed c.workers
  ∧ countEmployed (e.run draws).workers ≤ countEmployed e.workers := by
  refine ⟨?_, countEmployed_step_le e draw, ?_, countEmployed_stepHomogeneous_le e,
    ?_, countEmployed_chessStep_le c draw shuffle, countEmployed_run_le draws e⟩
  · rw [step_workers, fireAt]
    exact employedAt_fireAtF_map_update_le _ _ _
  · rw [stepHomogeneous_workers, fireBelow]
    exact employedAt_fireBelowF_map_update_le _ _ _
  · rw [chessStep_workers, fireAt]
    exact employedAt_fireAtF_map_update_le _ _ _

/-- C8: a step never flips more workers than are employed before it: in
`eco.py` the post-step employed count is exactly the old count minus
`min jobs_to_automate (old count)` (so it never goes below zero even when
`jobs_to_automate` exceeds the employed count), the same holds for
`chess.py` whenever the shuffle permutes the index list, and the counts of
the other variants are also clamped by the pre-step employed count. -/
theorem automation_clamped_to_employed (e : Economy) (draw : ℚ)
    (c : ChessEconomy) (shuffle : List ℕ → List ℕ) :
    (e.step draw).num_employed =
      countEmployed e.workers - min (stepJobs e draw) (countEmployed e.workers)
  ∧ countEmployed (e.stepHomogeneous).workers ≤ countEmployed e.workers
  ∧ countEmployed (c.step draw shuffle).workers ≤ countEmployed c.workers
  ∧ ((∀ l, List.Perm (shuffle l) l) →
      countEmployed (c.step draw shuffle).workers =
        countEmployed c.workers -
          min (jobsFromRate (max 0 draw) (countEmployed c.workers))
            (countEmployed c.workers)) := by
  refine ⟨?_, countEmployed_stepHomogeneous_le e,
    countEmployed_chessStep_le c draw shuffle,
    chess_count_exact c draw shuffle⟩
  rw [step_num_employed, step_workers, fireAt, employedIndices,
    countEmployed_fireAtF_take, countEmployed_map_update]

theorem automation_clamped_to_employed_witness :
    (∀ l : List ℕ, List.Perm (id l) l)
  ∧ countEmployed (sampleChess.step (1 / 20) id).workers =
      countEmployed sampleChess.workers -
        min (jobsFromRate (max 0 (1 / 20)) (countEmployed sampleChess.workers))
          (countEmployed sampleChess.workers) :=
  ⟨fun l => List.Perm.refl l,
   (automation_clamped_to_employed sampleEconomy (1 / 20) sampleChess id).2.2.2
     (fun l => List.Perm.refl l)⟩

/-! ## Total-unemployment states -/

theorem countEmployed_eq_zero (ws : List Worker) :
    countEmployed ws = 0 ↔ ∀ w ∈ ws, w.employed = false := by
  rw [countEmployed, List.length_eq_zero, List.filter_eq_nil_iff]
  simp

theorem employedIndicesF_eq_nil (ws : List Worker) :
    ∀ k, (∀ w ∈ ws, w.employed = false) → employedIndicesF k ws = [] := by
  induction ws with
  | nil => intro k _; rfl
  | cons w ws ih =>
    intro k h
    rw [employedIndicesF_cons, if_neg (by simp [h w (List.mem_cons_self _ _)]),
      ih (k + 1) (fun u hu => h u (List.mem_cons_of_mem _ hu))]

theorem jobsFromRate_num_zero (a : ℚ) : jobsFromRate a 0 = 0 := by
  simp [jobsFromRate]

theorem AIFirm.eqOfGain {a b : AIFirm} (h : a.material_gain = b.material_gain) :
    a = b := by
  cases a; cases b; simpa using h

theorem Government.eqOfTax {a b : Government}
    (h : a.tax_revenue = b.tax_revenue) : a = b := by
  cases a; cases b; simpa using h

theorem update_idem (w : Worker) :
    Worker.update (Worker.update w) = Worker.update w := rfl

/-- Everything one step does from a consistent state with no employed
worker: it normalises the derived fields to zero, leaves flags, wages and
the cumulative profit alone, and records an all-zero snapshot. -/
theorem step_dead (e : Economy) (d : ℚ) (h0 : countEmployed e.workers = 0)
    (h1 : e.num_employed = 0) :
    (e.step d).workers = e.workers.map Worker.update
  ∧ (e.step d).num_employed = 0
  ∧ (e.step d).ai_firm = e.ai_firm
  ∧ (e.step d).non_ai_firms = e.non_ai_firms.map (fun f => f.update 0)
  ∧ (e.step d).government = ⟨0⟩
  ∧ (e.step d).total_consumption = 0
  ∧ (e.step d).data = e.data ++ [⟨0, 0, 0, e.ai_firm.material_gain, 0⟩] := by
  have hall : ∀ w ∈ e.workers, w.employed = false :=
    (countEmployed_eq_zero e.workers).mp h0
  have hupd : ∀ w ∈ e.workers.map Worker.update, w.employed = false := by
    intro w hw
    obtain ⟨u, hu, rfl⟩ := List.mem_map.mp hw
    rw [update_employed]
    exact hall u hu
  have hpre : preStimulusConsumption e = 0 := by
    rw [preStimulusConsumption]
    apply List.sum_eq_zero
    intro x hx
    obtain ⟨w, hw, rfl⟩ := List.mem_map.mp hx
    obtain ⟨u, hu, rfl⟩ := List.mem_map.mp hw
    simp [Worker.update, hall u hu]
  have hworkers : (e.step d).workers = e.workers.map Worker.update := by
    rw [step_workers, employedIndices, employedIndicesF_eq_nil _ 0 hupd,
      List.take_nil, fireAt, fireAtF_nil_idxs]
  have hnum : (e.step d).num_employed = 0 := by
    rw [step_num_employed, hworkers, countEmployed_map_update, h0]
  have hgain : (e.step d).ai_firm = e.ai_firm := by
    apply AIFirm.eqOfGain
    rw [step_ai_firm, updateStochastic_gain, h1, jobsFromRate_num_zero]
    norm_num
  have hfirms : (e.step d).non_ai_firms =
      e.non_ai_firms.map (fun f => f.update 0) := by
    rw [step_non_ai_firms, hpre]
  have hwage0 : employedWages (e.step d).workers = 0 := by
    rw [hworkers, employedWages,
      List.filter_eq_nil_iff.mpr (fun a ha => by simp [hupd a ha])]
    rfl
  have hrev0 : firmRevenues (e.step d).non_ai_firms = 0 := by
    rw [hfirms, firmRevenues]
    apply List.sum_eq_zero
    intro x hx
    obtain ⟨f, hf, rfl⟩ := List.mem_map.mp hx
    obtain ⟨g, hg, rfl⟩ := List.mem_map.mp hf
    simp [NonAIFirm.update]
  have hgov : (e.step d).government = ⟨0⟩ := by
    apply Government.eqOfTax
    rw [step_government, govUpdate_tax, hwage0, hrev0]
    norm_num
  have htot : (e.step d).total_consumption = 0 := by
    rw [step_total_consumption, hpre, hgov]
    norm_num
  refine ⟨hworkers, hnum, hgain, hfirms, hgov, htot, ?_⟩
  rw [step_data, hnum, htot, hgov, hrev0, hgain]

/-- C10 counterexample: a state in which no worker is employed but a worker
consumption field still holds its last pre-flip value (exactly the shape the
engine itself produces when the last employed workers are flipped): the next
step rewrites that field to zero, so the agent state does not stay
unchanged. -/
theorem total_unemployment_state_changes :
    countEmployed haltedSample.workers = 0
  ∧ (haltedSample.step 0).workers ≠ haltedSample.workers := by
  constructor
  · decide
  · have hw : (haltedSample.step 0).workers = [⟨100, false, 0⟩] := by
      rw [step_workers]
      have h1 : haltedSample.workers.map Worker.update =
          [(⟨100, false, 0⟩ : Worker)] := by
        simp [haltedSample, Worker.update]
      rw [h1, show employedIndices [(⟨100, false, 0⟩ : Worker)] = [] from rfl,
        List.take_nil, fireAt, fireAtF_nil_idxs]
    rw [hw]
    decide

/-- C10 (amended): from every consistent engine state with no employed
worker, each step appends a snapshot recording employment 0, consumption 0,
tax 0 (hence stimulus 0), firm revenues 0 and the unchanged cumulative
profit, touches no wage or employment flag, and normalises the derived
fields to zero; from the next step on the state is a fixed point — only the
history grows. -/
theorem total_unemployment_absorbing (e : Economy) (d d₂ : ℚ)
    (h0 : countEmployed e.workers = 0) (h1 : e.num_employed = 0) :
    (e.step d).workers.map Worker.employed = e.workers.map Worker.employed
  ∧ (e.step d).workers.map Worker.wage = e.workers.map Worker.wage
  ∧ (e.step d).num_employed = 0
  ∧ (e.step d).ai_firm.material_gain = e.ai_firm.material_gain
  ∧ (e.step d).government.tax_revenue = 0
  ∧ (e.step d).total_consumption = 0
  ∧ firmRevenues (e.step d).non_ai_firms = 0
  ∧ (e.step d).data = e.data ++ [⟨0, 0, 0, e.ai_firm.material_gain, 0⟩]
  ∧ ((e.step d).step d₂).core = (e.step d).core := by
  obtain ⟨hworkers, hnum, hgain, hfirms, hgov, htot, hdata⟩ :=
    step_dead e d h0 h1
  have hwage0 : employedWages (e.step d).workers = 0 := by
    have hall : ∀ w ∈ e.workers, w.employed = false :=
      (countEmployed_eq_zero e.workers).mp h0
    rw [hworkers, employedWages, List.filter_eq_nil_iff.mpr (fun a ha => by
      obtain ⟨u, hu, rfl⟩ := List.mem_map.mp ha
      simp [update_employed, hall u hu])]
    rfl
  have hrev0 : firmRevenues (e.step d).non_ai_firms = 0 := by
    rw [hfirms, firmRevenues]
    apply List.sum_eq_zero
    intro x hx
    obtain ⟨f, hf, rfl⟩ := List.mem_map.mp hx
    obtain ⟨g, hg, rfl⟩ := List.mem_map.mp hf
    simp [NonAIFirm.update]
  have h0s : countEmployed (e.step d).workers = 0 := by
    rw [hworkers, countEmployed_map_update, h0]
  obtain ⟨hworkers2, hnum2, hgain2, hfirms2, hgov2, htot2, _⟩ :=
    step_dead (e.step d) d₂ h0s hnum
  refine ⟨?_, ?_, hnum, by rw [hgain], by rw [hgov], htot, hrev0, hdata, ?_⟩
  · rw [hworkers, List.map_map]
    rfl
  · rw [hworkers, List.map_map]
    rfl
  · have hwfix : ((e.step d).step d₂).workers = (e.step d).workers := by
      rw [hworkers2, hworkers, List.map_map,
        show Worker.update ∘ Worker.update = Worker.update from funext update_idem]
    have hffix : ((e.step d).step d₂).non_ai_firms = (e.step d).non_ai_firms := by
      rw [hfirms2, hfirms, List.map_map]
      rfl
    simp only [Economy.core, Prod.mk.injEq]
    exact ⟨hwfix, by rw [hnum2, hnum], by rw [hgain2], hffix,
      by rw [hgov2, hgov], by rw [htot2, htot],
      step_initial_consumption (e.step d) d₂⟩

theorem total_unemployment_absorbing_witness :
    countEmployed zeroedSample.workers = 0
  ∧ zeroedSample.num_employed = 0
  ∧ ((zeroedSample.step 0).step 0).core = (zeroedSample.step 0).core :=
  ⟨by decide, rfl,
   (total_unemployment_absorbing zeroedSample 0 0 (by decide) rfl).2.2.2.2.2.2.2.2⟩

end AIEconomy
